import Mathlib

/-!
Verification of the tiny_vfs mount/overlay resolution engine (src/tiny_vfs.h).

Paths are modeled as lists of characters (abbrev Str).  The path grammar
follows the MSVC std::filesystem implementation that the repository builds
against (build_and_test.bat targets Visual Studio; the README recommends
MSVC 2019+): a root name is either a drive prefix (a letter followed by a
colon) or a UNC prefix (two separators followed by a server name), and both
forward and backward slashes act as directory separators.

The functions normalize_virtual_path, relative_to_mount, child_mount_name
and the Vfs operations are direct translations of the functions of the same
names in src/tiny_vfs.h.  Backends are modeled as records of pure functions
(the Backend interface of the header); enumeration callbacks are modeled by
returning, alongside the Result code, the list of names the backend emits
to the callback, in emission order.
-/

set_option autoImplicit false

namespace TinyVfs

/-- Virtual paths and backend-relative paths: byte strings, modeled as
character lists. -/
abbrev Str := List Char

/-- Blob: the owned byte buffer returned by a successful read. -/
abbrev Blob := List UInt8

/-- Result codes of tiny_vfs operations (enum class Result). -/
inductive Result where
  | ok
  | not_found
  | io_error
  | not_supported
  | invalid_path
  deriving DecidableEq, Repr

/-- Directory separators: MSVC std::filesystem accepts both slashes. -/
def isSep (c : Char) : Bool :=
  c == '/' || c == '\\'

/-- Drive letters for the MSVC drive-prefix root name (letter plus colon). -/
def isDriveLetter (c : Char) : Bool :=
  (decide ('a' ≤ c) && decide (c ≤ 'z')) || (decide ('A' ≤ c) && decide (c ≤ 'Z'))

/-- Split a root name (drive prefix or UNC server prefix) off the front of a
path string, MSVC style; returns the root name (if any) and the remainder. -/
def splitRootName (s : Str) : Option Str × Str :=
  match s with
  | c0 :: c1 :: rest =>
    if isDriveLetter c0 && c1 == ':' then (some [c0, ':'], rest)
    else if isSep c0 && isSep c1 then
      match rest with
      | [] => (none, s)
      | c2 :: _ =>
        if isSep c2 then (none, s)
        else (some (c0 :: c1 :: rest.takeWhile (fun c => !isSep c)),
              rest.dropWhile (fun c => !isSep c))
    else (none, s)
  | _ => (none, s)

/-- One step of splitting a relative path into components (fold right over
the characters, building the current component and the components after
it). -/
def splitCompsStep (c : Char) (acc : Str × List Str) : Str × List Str :=
  if isSep c then
    ([], if acc.1 = [] then acc.2 else acc.1 :: acc.2)
  else
    (c :: acc.1, acc.2)

/-- Split a (root-name-free) path remainder into its nonempty filename
components, discarding redundant separators; matches iteration over the
relative part of an fs::path. -/
def splitComps (s : Str) : List Str :=
  let r := s.foldr splitCompsStep ([], [])
  if r.1 = [] then r.2 else r.1 :: r.2

/-- The decomposition of a path string: root name, root directory flag, and
the filename components of the relative part. -/
structure ParsedPath where
  rootName : Option Str
  rootDir : Bool
  comps : List Str

/-- Parse a path string into root name, root directory and components,
following the MSVC fs::path grammar. -/
def parsePath (s : Str) : ParsedPath :=
  let r := splitRootName s
  { rootName := r.1
    rootDir := match r.2 with | c :: _ => isSep c | [] => false
    comps := splitComps r.2 }

/-- One step of the dot-dot collapsing stack of fs::path::lexically_normal:
dot components are dropped; a dot-dot pops a preceding normal component,
is dropped entirely at the bottom of the stack when a root directory is
present, and is kept otherwise. -/
def collapseStep (rootDir : Bool) (stack : List Str) (comp : Str) : List Str :=
  if comp = ['.'] then stack
  else if comp = ['.', '.'] then
    match stack with
    | [] => if rootDir then [] else [comp]
    | top :: rest => if top = ['.', '.'] then comp :: stack else rest
  else comp :: stack

/-- Collapse dot and dot-dot components the way lexically_normal does. -/
def collapse (rootDir : Bool) (comps : List Str) : List Str :=
  (comps.foldl (collapseStep rootDir) []).reverse

/-- Join components with forward slashes (generic_string rendering of the
relative part of a path). -/
def joinSlash : List Str → Str
  | [] => []
  | [p] => p
  | p :: ps => p ++ '/' :: joinSlash ps

/-- The generic_string of lexically_normal for a path without a root name,
as used inside normalize_virtual_path.  A trailing directory separator of
the C++ result is not represented: the caller strips trailing slashes and
ignores the empty trailing filename it induces, so it cannot influence the
outcome. -/
def lexicallyNormalGeneric (input : Str) : Str :=
  if input = [] then []
  else
    let p := parsePath input
    let comps := collapse p.rootDir p.comps
    if p.rootDir then '/' :: joinSlash comps
    else if comps = [] then ['.']
    else joinSlash comps

/-- Strip leading and trailing forward slashes (the two erase loops of
normalize_virtual_path). -/
def stripSlashes (s : Str) : Str :=
  ((s.dropWhile (fun c => c == '/')).reverse.dropWhile (fun c => c == '/')).reverse

/-- detail::normalize_virtual_path of tiny_vfs.h: reject root names, apply
lexically_normal, reject remaining dot-dot parts (the for loop iterates the
normalized path, hence the re-parse), map "." and "/" to the empty path and
strip surrounding slashes.  Returns none where the C++ returns false. -/
def normalize_virtual_path (input : Str) : Option Str :=
  if (parsePath input).rootName.isSome then none
  else
    let s := lexicallyNormalGeneric input
    if ['.', '.'] ∈ (parsePath s).comps then none
    else if s = ['.'] || s = ['/'] then some []
    else
      let t := stripSlashes s
      some (if t = ['.'] then [] else t)

/-- detail::relative_to_mount of tiny_vfs.h. -/
def relative_to_mount (full mount : Str) : Option Str :=
  if mount = [] then some full
  else if full = mount then some []
  else if decide (mount.length < full.length) && mount.isPrefixOf full &&
      full.getD mount.length ' ' == '/' then
    some (full.drop (mount.length + 1))
  else none

/-- detail::child_mount_name of tiny_vfs.h. -/
def child_mount_name (parent mount : Str) : Option Str :=
  if mount = [] then none
  else if parent = [] then some (mount.takeWhile (fun c => !(c == '/')))
  else if mount.length ≤ parent.length then none
  else if !(parent.isPrefixOf mount && mount.getD parent.length ' ' == '/') then none
  else some ((mount.drop (parent.length + 1)).takeWhile (fun c => !(c == '/')))

/-- The Backend capability interface.  The two enumeration operations
return the Result code together with the list of names handed to the
callback, in emission order. -/
structure Backend where
  exists_file : Str → Bool
  exists_dir : Str → Bool
  read_file : Str → Option Blob
  write_file : Str → Blob → Result
  list_files : Str → List Str → Bool → Result × List Str
  list_dirs : Str → Bool → Result × List Str

/-- A mount table entry: normalized prefix and backend. -/
structure MountPoint where
  mount : Str
  backend : Backend

/-- The Vfs facade: the ordered mount table (mounts_). -/
structure Vfs where
  mounts : List MountPoint

/-- Vfs::mount: a null backend handle or a rejected prefix leaves the table
unchanged and reports false; otherwise the mount is appended. -/
def Vfs.mount (v : Vfs) (path : Str) (backend : Option Backend) : Bool × Vfs :=
  match backend with
  | none => (false, v)
  | some b =>
    match normalize_virtual_path path with
    | none => (false, v)
    | some n => (true, ⟨v.mounts ++ [⟨n, b⟩]⟩)

/-- Vfs::unmount: the erase loop removes every entry whose prefix equals the
normalized argument, keeping the others in order, and reports whether
anything was removed. -/
def Vfs.unmount (v : Vfs) (path : Str) : Bool × Vfs :=
  match normalize_virtual_path path with
  | none => (false, v)
  | some n =>
    (v.mounts.any (fun m => m.mount == n),
     ⟨v.mounts.filter (fun m => !(m.mount == n))⟩)

/-- The reverse-iterator loop of Vfs::read_file over the mount list given
newest first. -/
def read_go (n : Str) : List MountPoint → Option Blob
  | [] => none
  | m :: rest =>
    match relative_to_mount n m.mount with
    | none => read_go n rest
    | some rel =>
      match m.backend.read_file rel with
      | some data => some data
      | none => read_go n rest

/-- Vfs::read_file. -/
def Vfs.read_file (v : Vfs) (path : Str) : Option Blob :=
  match normalize_virtual_path path with
  | none => none
  | some n => read_go n v.mounts.reverse

/-- The reverse-iterator loop of Vfs::write_file, carrying the matched flag
and last_result. -/
def write_go (n : Str) (data : Blob) : List MountPoint → Bool → Result → Result
  | [], matched, last => if matched then last else Result.not_found
  | m :: rest, matched, last =>
    match relative_to_mount n m.mount with
    | none => write_go n data rest matched last
    | some rel =>
      let r := m.backend.write_file rel data
      if r = Result.ok ∨ r = Result.io_error then r
      else write_go n data rest true (if r ≠ Result.not_supported then r else last)

/-- Vfs::write_file. -/
def Vfs.write_file (v : Vfs) (path : Str) (data : Blob) : Result :=
  match normalize_virtual_path path with
  | none => Result.invalid_path
  | some n => write_go n data v.mounts.reverse false Result.not_supported

/-- The deduplicating emit lambda of Vfs::list_files and Vfs::list_dirs,
applied to a list of names: returns the updated seen set (as a list) and
the names actually forwarded to the callback. -/
def emitDedup (seen : List Str) : List Str → List Str × List Str
  | [] => (seen, [])
  | x :: xs =>
    if x ∈ seen then emitDedup seen xs
    else
      let r := emitDedup (x :: seen) xs
      (r.1, x :: r.2)

/-- The reverse-iterator loop of Vfs::list_files: each matching backend is
asked to enumerate with allow_duplicates = true, its names run through the
emit lambda, and a backend io_error aborts immediately. -/
def lf_go (n : Str) (exts : List Str) (allowDup : Bool) :
    List MountPoint → Bool → List Str → Result × List Str
  | [], matched, _ => (if matched then Result.ok else Result.not_found, [])
  | m :: rest, matched, seen =>
    match relative_to_mount n m.mount with
    | none => lf_go n exts allowDup rest matched seen
    | some rel =>
      let r := m.backend.list_files rel exts true
      let e := if allowDup then (seen, r.2) else emitDedup seen r.2
      if r.1 = Result.io_error then (Result.io_error, e.2)
      else
        let k := lf_go n exts allowDup rest true e.1
        (k.1, e.2 ++ k.2)

/-- Vfs::list_files: result code and the full callback stream. -/
def Vfs.list_files (v : Vfs) (path : Str) (exts : List Str) (allowDup : Bool) :
    Result × List Str :=
  match normalize_virtual_path path with
  | none => (Result.invalid_path, [])
  | some n => lf_go n exts allowDup v.mounts.reverse false []

/-- The emit lambda of Vfs::list_dirs applied to a single synthetic name. -/
def ld_emit (allowDup : Bool) (seen : List Str) (name : Str) : List Str × List Str :=
  if allowDup then (seen, [name])
  else if name ∈ seen then (seen, [])
  else (name :: seen, [name])

/-- The first loop of Vfs::list_dirs: walk the mount table in insertion
order and emit the synthetic child mount names. -/
def ld_synth (n : Str) (allowDup : Bool) : List MountPoint → List Str → List Str × List Str
  | [], seen => (seen, [])
  | m :: rest, seen =>
    match child_mount_name n m.mount with
    | none => ld_synth n allowDup rest seen
    | some c =>
      let e := ld_emit allowDup seen c
      let k := ld_synth n allowDup rest e.1
      (k.1, e.2 ++ k.2)

/-- The reverse-iterator loop of Vfs::list_dirs over backends; at the end
the call succeeds when a mount matched or the seen set is nonempty. -/
def ld_go (n : Str) (allowDup : Bool) : List MountPoint → Bool → List Str → Result × List Str
  | [], matched, seen =>
    (if matched || !seen.isEmpty then Result.ok else Result.not_found, [])
  | m :: rest, matched, seen =>
    match relative_to_mount n m.mount with
    | none => ld_go n allowDup rest matched seen
    | some rel =>
      let r := m.backend.list_dirs rel true
      let e := if allowDup then (seen, r.2) else emitDedup seen r.2
      if r.1 = Result.io_error then (Result.io_error, e.2)
      else
        let k := ld_go n allowDup rest true e.1
        (k.1, e.2 ++ k.2)

/-- Vfs::list_dirs: result code and the full callback stream (synthetic
entries first, as in the source). -/
def Vfs.list_dirs (v : Vfs) (path : Str) (allowDup : Bool) : Result × List Str :=
  match normalize_virtual_path path with
  | none => (Result.invalid_path, [])
  | some n =>
    let sy := ld_synth n allowDup v.mounts []
    let re := ld_go n allowDup v.mounts.reverse false sy.1
    (re.1, sy.2 ++ re.2)

/-- The final reverse-iterator loop of Vfs::exists_dir asking backends. -/
def exists_dir_backend_go (n : Str) : List MountPoint → Bool
  | [] => false
  | m :: rest =>
    match relative_to_mount n m.mount with
    | none => exists_dir_backend_go n rest
    | some rel => m.backend.exists_dir rel || exists_dir_backend_go n rest

/-- Vfs::exists_dir: the virtual root exists when any mount does; a path
that equals a mount prefix or is a strict slash-delimited prefix of one
exists implicitly; otherwise backends are consulted newest first. -/
def Vfs.exists_dir (v : Vfs) (path : Str) : Bool :=
  match normalize_virtual_path path with
  | none => false
  | some n =>
    if n = [] then !v.mounts.isEmpty
    else if v.mounts.any (fun m =>
        m.mount == n ||
        (decide (n.length < m.mount.length) && n.isPrefixOf m.mount &&
          m.mount.getD n.length ' ' == '/')) then true
    else exists_dir_backend_go n v.mounts.reverse

/-- Modelled from the spec: the rejection condition of section 4.1, which
resolves a dot-dot only against the accumulated relative path (never
against a root directory); true when a dot-dot crosses above the virtual
root, which for a purely relative accumulation is exactly a dot-dot
surviving the collapse. -/
def wouldEscapeRoot (input : Str) : Bool :=
  decide (['.', '.'] ∈ collapse false (parsePath input).comps)

/-- A backend serving a fixed association list of files, refusing writes. -/
def roBackend (files : List (Str × Blob)) : Backend where
  exists_file := fun r => (files.lookup r).isSome
  exists_dir := fun _ => false
  read_file := fun r => files.lookup r
  write_file := fun _ _ => Result.not_supported
  list_files := fun _ _ _ => (Result.ok, files.map Prod.fst)
  list_dirs := fun _ _ => (Result.ok, [])

/-- A backend whose write_file always answers the given result. -/
def wBackend (r : Result) : Backend where
  exists_file := fun _ => false
  exists_dir := fun _ => false
  read_file := fun _ => none
  write_file := fun _ _ => r
  list_files := fun _ _ _ => (Result.ok, [])
  list_dirs := fun _ _ => (Result.ok, [])

/-- A backend that reports nothing at all. -/
def nullBackend : Backend where
  exists_file := fun _ => false
  exists_dir := fun _ => false
  read_file := fun _ => none
  write_file := fun _ _ => Result.not_supported
  list_files := fun _ _ _ => (Result.not_found, [])
  list_dirs := fun _ _ => (Result.not_found, [])

/-- A backend enumerating fixed file and directory name lists. -/
def enumBackend (fileNames dirNames : List Str) : Backend where
  exists_file := fun _ => false
  exists_dir := fun _ => false
  read_file := fun _ => none
  write_file := fun _ _ => Result.not_supported
  list_files := fun _ _ _ => (Result.ok, fileNames)
  list_dirs := fun _ _ => (Result.ok, dirNames)

/-- The backend read results of the mounts matching a normalized path, in
most-recently-mounted-first order. -/
def matchedReadResults (v : Vfs) (n : Str) : List (Option Blob) :=
  v.mounts.reverse.filterMap (fun m =>
    (relative_to_mount n m.mount).map (fun rel => m.backend.read_file rel))

/-- The backend write results of the mounts matching a normalized path, in
most-recently-mounted-first order. -/
def matchedWriteResults (v : Vfs) (n : Str) (data : Blob) : List Result :=
  v.mounts.reverse.filterMap (fun m =>
    (relative_to_mount n m.mount).map (fun rel => m.backend.write_file rel data))

/-- The backend enumeration answers (result code and emitted names) of the
mounts matching a normalized path, in most-recently-mounted-first order. -/
def matchedLists (v : Vfs) (n : Str) (exts : List Str) : List (Result × List Str) :=
  v.mounts.reverse.filterMap (fun m =>
    (relative_to_mount n m.mount).map (fun rel => m.backend.list_files rel exts true))

section ListHelpers

theorem getD_append_self (l t : List Char) (c d : Char) :
    (l ++ c :: t).getD l.length d = c := by
  induction l with
  | nil => rfl
  | cons a l ih => simpa [List.getD] using ih

theorem getElem_append_self (l t : List Char) (c : Char)
    (h : l.length < (l ++ c :: t).length) : (l ++ c :: t)[l.length] = c := by
  induction l with
  | nil => rfl
  | cons a l ih => simpa using ih (by simp [List.length_append])

theorem isPrefixOf_append_self (l t : List Char) : l.isPrefixOf (l ++ t) = true := by
  induction l with
  | nil => cases t <;> rfl
  | cons a l ih => simp [List.isPrefixOf, ih]

end ListHelpers

/-- Claim C9: failed mutations of the mount table are atomic: a mount that
reports false (null backend or rejected prefix) and an unmount that reports
false (rejected path or no equal prefix) leave the mount table exactly as
it was, same entries in the same order. -/
theorem mount_unmount_failure_atomic (v : Vfs) (path : Str) (b : Option Backend) :
    ((Vfs.mount v path b).1 = false → (Vfs.mount v path b).2 = v) ∧
    ((Vfs.unmount v path).1 = false → (Vfs.unmount v path).2 = v) := by
  constructor
  · intro h
    cases b with
    | none => rfl
    | some bk =>
      unfold Vfs.mount at h ⊢
      cases hn : normalize_virtual_path path with
      | none => simp [hn]
      | some n => simp [hn] at h
  · intro h
    unfold Vfs.unmount at h ⊢
    cases hn : normalize_virtual_path path with
    | none => simp [hn]
    | some n =>
      simp only [hn] at h ⊢
      obtain ⟨ms⟩ := v
      simp only [List.any_eq_false] at h
      have : ∀ m ∈ ms, (!(m.mount == n)) = true := by
        intro m hm
        simpa using h m hm
      simp [List.filter_eq_self.mpr this]

/-- Witness for C9 at a concrete table: mounting a null backend and
unmounting a prefix that is not present both fail and leave the one-entry
table untouched. -/
theorem mount_unmount_failure_atomic_witness :
    (Vfs.mount ⟨[⟨['a'], nullBackend⟩]⟩ ['b'] none).1 = false ∧
    (Vfs.mount ⟨[⟨['a'], nullBackend⟩]⟩ ['b'] none).2 = ⟨[⟨['a'], nullBackend⟩]⟩ ∧
    (Vfs.unmount ⟨[⟨['a'], nullBackend⟩]⟩ ['b']).1 = false ∧
    (Vfs.unmount ⟨[⟨['a'], nullBackend⟩]⟩ ['b']).2 = ⟨[⟨['a'], nullBackend⟩]⟩ := by
  refine ⟨rfl, (mount_unmount_failure_atomic ⟨[⟨['a'], nullBackend⟩]⟩ ['b'] none).1 rfl,
    rfl, (mount_unmount_failure_atomic ⟨[⟨['a'], nullBackend⟩]⟩ ['b'] none).2 rfl⟩

/-- Claim C6: exists_dir holds at the virtual root exactly when the mount
table is nonempty, and holds at any valid path that equals a mount prefix
or is a strict slash-delimited prefix of one, whatever the backends say. -/
theorem exists_dir_root_and_mount_prefixes (v : Vfs) (path n : Str)
    (h : normalize_virtual_path path = some n) :
    (n = [] → (Vfs.exists_dir v path = true ↔ v.mounts ≠ [])) ∧
    (n ≠ [] → ∀ m ∈ v.mounts,
      (m.mount = n ∨ ∃ rest, m.mount = n ++ '/' :: rest) →
      Vfs.exists_dir v path = true) := by
  constructor
  · intro hn
    subst hn
    unfold Vfs.exists_dir
    simp [h]
  · intro hn m hm hpre
    unfold Vfs.exists_dir
    simp only [h, if_neg hn]
    have hany : v.mounts.any (fun m =>
        m.mount == n ||
        (decide (n.length < m.mount.length) && n.isPrefixOf m.mount &&
          m.mount.getD n.length ' ' == '/')) = true := by
      refine List.any_eq_true.mpr ⟨m, hm, ?_⟩
      rcases hpre with heq | ⟨rest, hrest⟩
      · simp [heq]
      · have h1 : n.length < (n ++ '/' :: rest).length := by
          simp [List.length_append]
        simp [hrest, h1, isPrefixOf_append_self, getD_append_self, getElem_append_self]
    rw [if_pos hany]

/-- Witness for C6 at a concrete table: with a single mount at a/b, the
root exists and both a and a/b exist as directories. -/
theorem exists_dir_root_and_mount_prefixes_witness :
    normalize_virtual_path ['a'] = some ['a'] ∧
    Vfs.exists_dir ⟨[⟨['a', '/', 'b'], nullBackend⟩]⟩ ['a'] = true ∧
    normalize_virtual_path [] = some [] ∧
    Vfs.exists_dir ⟨[⟨['a', '/', 'b'], nullBackend⟩]⟩ [] = true := by
  refine ⟨by decide, ?_, by decide, ?_⟩
  · exact (exists_dir_root_and_mount_prefixes ⟨[⟨['a', '/', 'b'], nullBackend⟩]⟩
      ['a'] ['a'] (by decide)).2 (by decide) ⟨['a', '/', 'b'], nullBackend⟩
      (by simp) (Or.inr ⟨['b'], rfl⟩)
  · exact ((exists_dir_root_and_mount_prefixes ⟨[⟨['a', '/', 'b'], nullBackend⟩]⟩
      [] [] (by decide)).1 rfl).mpr (by simp)

theorem read_go_eq_findSome (n : Str) (ms : List MountPoint) :
    read_go n ms = (ms.filterMap (fun m =>
      (relative_to_mount n m.mount).map (fun rel => m.backend.read_file rel))).findSome? id := by
  induction ms with
  | nil => rfl
  | cons m rest ih =>
    cases hr : relative_to_mount n m.mount with
    | none => simp [read_go, hr, ih]
    | some rel =>
      cases hb : m.backend.read_file rel with
      | none => simp [read_go, hr, hb, ih, List.findSome?]
      | some data => simp [read_go, hr, hb, List.findSome?]

/-- Claim C1: read_file walks the matching mounts newest first and returns
the first successful backend read (a matching mount without the file is
skipped; absence is reported only when every matching read failed); in
particular, with two mounts at the same prefix both holding the file, the
newer mount wins. -/
theorem read_file_overlay_precedence (path n : Str)
    (h : normalize_virtual_path path = some n) :
    (∀ v : Vfs, Vfs.read_file v path = (matchedReadResults v n).findSome? id) ∧
    (∀ (A B : Backend) (q rel : Str) (a b : Blob),
      relative_to_mount n q = some rel →
      A.read_file rel = some a → B.read_file rel = some b →
      Vfs.read_file ⟨[⟨q, A⟩, ⟨q, B⟩]⟩ path = some b) := by
  constructor
  · intro v
    unfold Vfs.read_file matchedReadResults
    simp [h, read_go_eq_findSome]
  · intro A B q rel a b hq hA hB
    unfold Vfs.read_file
    simp [h, read_go, hq, hB]

/-- Witness for C1: two read-only mounts at the virtual root, both holding
file x; the content of the newer mount is returned. -/
theorem read_file_overlay_precedence_witness :
    normalize_virtual_path ['x'] = some ['x'] ∧
    Vfs.read_file ⟨[⟨[], roBackend [(['x'], [1])]⟩, ⟨[], roBackend [(['x'], [2])]⟩]⟩ ['x'] =
      some [2] := by
  refine ⟨by decide, ?_⟩
  exact (read_file_overlay_precedence ['x'] ['x'] (by decide)).2
    (roBackend [(['x'], [1])]) (roBackend [(['x'], [2])]) [] ['x'] [1] [2]
    (by decide) (by decide) (by decide)

/-- The loop body of Vfs::write_file expressed over the list of matched
backend results. -/
def wfold : List Result → Bool → Result → Result
  | [], matched, last => if matched then last else Result.not_found
  | r :: rs, _, last =>
    if r = Result.ok ∨ r = Result.io_error then r
    else wfold rs true (if r ≠ Result.not_supported then r else last)

theorem write_go_eq_wfold (n : Str) (data : Blob) (ms : List MountPoint)
    (matched : Bool) (last : Result) :
    write_go n data ms matched last = wfold (ms.filterMap (fun m =>
      (relative_to_mount n m.mount).map (fun rel => m.backend.write_file rel data)))
      matched last := by
  induction ms generalizing matched last with
  | nil => rfl
  | cons m rest ih =>
    cases hr : relative_to_mount n m.mount with
    | none => simp [write_go, hr, ih]
    | some rel => simp [write_go, hr, ih, wfold]

theorem wfold_skip_to_first_hard (l : List Result) (r : Result) (rs : List Result)
    (matched : Bool) (last : Result)
    (hl : ∀ x ∈ l, x ≠ Result.ok ∧ x ≠ Result.io_error)
    (hr : r = Result.ok ∨ r = Result.io_error) :
    wfold (l ++ r :: rs) matched last = r := by
  induction l generalizing matched last with
  | nil => simp [wfold, hr]
  | cons x l ih =>
    have hx := hl x (by simp)
    have hnx : ¬(x = Result.ok ∨ x = Result.io_error) := by
      rintro (h | h)
      · exact hx.1 h
      · exact hx.2 h
    simp only [List.cons_append, wfold, if_neg hnx]
    exact ih true _ (fun y hy => hl y (List.mem_cons_of_mem x hy))

theorem wfold_all_not_supported (l : List Result) (matched : Bool) (last : Result)
    (hne : l ≠ []) (hall : ∀ x ∈ l, x = Result.not_supported) :
    wfold l matched last = last := by
  induction l generalizing matched last with
  | nil => exact absurd rfl hne
  | cons x l ih =>
    have hx : x = Result.not_supported := hall x (List.mem_cons_self x l)
    subst hx
    have step : wfold (Result.not_supported :: l) matched last = wfold l true last := by
      simp [wfold]
    rw [step]
    rcases Decidable.em (l = []) with hl | hl
    · subst hl
      rfl
    · exact ih true last hl (fun y hy => hall y (List.mem_cons_of_mem _ hy))

/-- Claim C2: write_file visits the matching mounts newest first: the first
backend answering ok or io_error terminates the search with that result,
not_supported falls through to older mounts, no matching mount yields
not_found, and all-not_supported yields not_supported. -/
theorem write_file_precedence (v : Vfs) (path n : Str) (data : Blob)
    (h : normalize_virtual_path path = some n) :
    (matchedWriteResults v n data = [] → Vfs.write_file v path data = Result.not_found) ∧
    (∀ l r rs, matchedWriteResults v n data = l ++ r :: rs →
      (∀ x ∈ l, x ≠ Result.ok ∧ x ≠ Result.io_error) →
      (r = Result.ok ∨ r = Result.io_error) →
      Vfs.write_file v path data = r) ∧
    (matchedWriteResults v n data ≠ [] →
      (∀ x ∈ matchedWriteResults v n data, x = Result.not_supported) →
      Vfs.write_file v path data = Result.not_supported) := by
  have hw : Vfs.write_file v path data =
      wfold (matchedWriteResults v n data) false Result.not_supported := by
    unfold Vfs.write_file matchedWriteResults
    simp [h, write_go_eq_wfold]
  refine ⟨?_, ?_, ?_⟩
  · intro hnil
    rw [hw, hnil]
    rfl
  · intro l r rs hsplit hl hr
    rw [hw, hsplit]
    exact wfold_skip_to_first_hard l r rs false Result.not_supported hl hr
  · intro hne hall
    rw [hw]
    exact wfold_all_not_supported _ false Result.not_supported hne hall

/-- Witness for C2: the newer mount refuses with not_supported and the
older mount accepts, so the overall write succeeds. -/
theorem write_file_precedence_witness :
    normalize_virtual_path ['x'] = some ['x'] ∧
    Vfs.write_file ⟨[⟨[], wBackend Result.ok⟩, ⟨[], wBackend Result.not_supported⟩]⟩
      ['x'] [7] = Result.ok := by
  refine ⟨by decide, ?_⟩
  exact (write_file_precedence
    ⟨[⟨[], wBackend Result.ok⟩, ⟨[], wBackend Result.not_supported⟩]⟩ ['x'] ['x'] [7]
    (by decide)).2.1 [Result.not_supported] Result.ok [] (by decide)
    (by intro x hx; simp at hx; subst hx; exact ⟨by decide, by decide⟩)
    (Or.inl rfl)

theorem emitDedup_append (seen : List Str) (a b : List Str) :
    emitDedup seen (a ++ b) =
      ((emitDedup (emitDedup seen a).1 b).1,
       (emitDedup seen a).2 ++ (emitDedup (emitDedup seen a).1 b).2) := by
  induction a generalizing seen with
  | nil => simp [emitDedup]
  | cons x xs ih =>
    by_cases hx : x ∈ seen
    · simp [emitDedup, hx, ih]
    · simp [emitDedup, hx, ih]

theorem mem_emitDedup_emitted (seen l : List Str) (x : Str) :
    x ∈ (emitDedup seen l).2 ↔ x ∈ l ∧ x ∉ seen := by
  induction l generalizing seen with
  | nil => simp [emitDedup]
  | cons y ys ih =>
    by_cases hy : y ∈ seen
    · rw [emitDedup, if_pos hy, ih]
      constructor
      · rintro ⟨h1, h2⟩
        exact ⟨List.mem_cons_of_mem y h1, h2⟩
      · rintro ⟨h1, h2⟩
        rcases List.mem_cons.mp h1 with h1 | h1
        · exact absurd (h1 ▸ hy) h2
        · exact ⟨h1, h2⟩
    · rw [emitDedup, if_neg hy]
      simp only [List.mem_cons, ih, List.mem_cons]
      constructor
      · rintro (h1 | ⟨h1, h2⟩)
        · exact ⟨Or.inl h1, h1 ▸ hy⟩
        · refine ⟨Or.inr h1, fun hc => h2 (Or.inr hc)⟩
      · rintro ⟨h1 | h1, h2⟩
        · exact Or.inl h1
        · by_cases hxy : x = y
          · exact Or.inl hxy
          · exact Or.inr ⟨h1, fun hc => h2 (hc.resolve_left hxy)⟩

theorem mem_emitDedup_seen (seen l : List Str) (x : Str) :
    x ∈ (emitDedup seen l).1 ↔ x ∈ seen ∨ x ∈ l := by
  induction l generalizing seen with
  | nil => simp [emitDedup]
  | cons y ys ih =>
    by_cases hy : y ∈ seen
    · rw [emitDedup, if_pos hy, ih]
      constructor
      · rintro (h | h)
        · exact Or.inl h
        · exact Or.inr (List.mem_cons_of_mem y h)
      · rintro (h | h)
        · exact Or.inl h
        · rcases List.mem_cons.mp h with h | h
          · exact Or.inl (h ▸ hy)
          · exact Or.inr h
    · rw [emitDedup, if_neg hy]
      simp only [ih, List.mem_cons]
      tauto

theorem emitDedup_emitted_nodup (seen l : List Str) : (emitDedup seen l).2.Nodup := by
  induction l generalizing seen with
  | nil => simp [emitDedup]
  | cons y ys ih =>
    by_cases hy : y ∈ seen
    · rw [emitDedup, if_pos hy]
      exact ih seen
    · rw [emitDedup, if_neg hy]
      refine List.nodup_cons.mpr ⟨?_, ih (y :: seen)⟩
      intro hc
      exact ((mem_emitDedup_emitted (y :: seen) ys y).mp hc).2 (List.mem_cons_self y seen)

/-- The loop body of Vfs::list_files expressed over the list of matched
backend enumeration answers. -/
def lfold : List (Result × List Str) → Bool → List Str → Result × List Str
  | [], matched, _ => (if matched then Result.ok else Result.not_found, [])
  | p :: rest, _, seen =>
    let e := emitDedup seen p.2
    if p.1 = Result.io_error then (Result.io_error, e.2)
    else
      let k := lfold rest true e.1
      (k.1, e.2 ++ k.2)

theorem lf_go_eq_lfold (n : Str) (exts : List Str) (ms : List MountPoint)
    (matched : Bool) (seen : List Str) :
    lf_go n exts false ms matched seen = lfold (ms.filterMap (fun m =>
      (relative_to_mount n m.mount).map (fun rel => m.backend.list_files rel exts true)))
      matched seen := by
  induction ms generalizing matched seen with
  | nil => rfl
  | cons m rest ih =>
    cases hr : relative_to_mount n m.mount with
    | none => simp [lf_go, hr, ih]
    | some rel => simp [lf_go, hr, ih, lfold]

theorem lfold_all_clean (l : List (Result × List Str)) (matched : Bool) (seen : List Str)
    (hne : l ≠ []) (hio : ∀ p ∈ l, p.1 ≠ Result.io_error) :
    lfold l matched seen = (Result.ok, (emitDedup seen (l.map Prod.snd).flatten).2) := by
  induction l generalizing matched seen with
  | nil => exact absurd rfl hne
  | cons p rest ih =>
    have hp : p.1 ≠ Result.io_error := hio p (List.mem_cons_self p rest)
    rcases Decidable.em (rest = []) with hr | hr
    · subst hr
      simp [lfold, hp]
    · have := ih true (emitDedup seen p.2).1 hr
        (fun q hq => hio q (List.mem_cons_of_mem p hq))
      simp [lfold, hp, this, emitDedup_append]

theorem lfold_io_error (l : List (Result × List Str)) (p : Result × List Str)
    (rs : List (Result × List Str)) (matched : Bool) (seen : List Str)
    (hl : ∀ q ∈ l, q.1 ≠ Result.io_error) (hp : p.1 = Result.io_error) :
    lfold (l ++ p :: rs) matched seen =
      (Result.io_error, (emitDedup seen ((l.map Prod.snd).flatten ++ p.2)).2) := by
  induction l generalizing matched seen with
  | nil => simp [lfold, hp]
  | cons q l ih =>
    have hq : q.1 ≠ Result.io_error := hl q (List.mem_cons_self q l)
    have := ih true (emitDedup seen q.2).1 (fun y hy => hl y (List.mem_cons_of_mem q hy))
    simp [lfold, hq, this, emitDedup_append, List.append_assoc]

/-- Claim C3: list_files is a union over every mount matching the path:
with no matching mount the result is not_found (never an empty ok), with
all matching backends clean the result is ok and the callback stream is
the first-occurrence deduplication of all contributed names (each distinct
name exactly once), and an io_error from a contributing backend is
returned immediately, cutting the enumeration short at that mount. -/
theorem list_files_union (v : Vfs) (path n : Str) (exts : List Str)
    (h : normalize_virtual_path path = some n) :
    (matchedLists v n exts = [] →
      Vfs.list_files v path exts false = (Result.not_found, [])) ∧
    (matchedLists v n exts ≠ [] →
      (∀ p ∈ matchedLists v n exts, p.1 ≠ Result.io_error) →
      Vfs.list_files v path exts false =
        (Result.ok, (emitDedup [] ((matchedLists v n exts).map Prod.snd).flatten).2) ∧
      (Vfs.list_files v path exts false).2.Nodup ∧
      (∀ x, x ∈ (Vfs.list_files v path exts false).2 ↔
        x ∈ ((matchedLists v n exts).map Prod.snd).flatten)) ∧
    (∀ l p rs, matchedLists v n exts = l ++ p :: rs →
      (∀ q ∈ l, q.1 ≠ Result.io_error) → p.1 = Result.io_error →
      Vfs.list_files v path exts false =
        (Result.io_error, (emitDedup [] ((l.map Prod.snd).flatten ++ p.2)).2)) := by
  have hbr : Vfs.list_files v path exts false = lfold (matchedLists v n exts) false [] := by
    unfold Vfs.list_files matchedLists
    simp [h, lf_go_eq_lfold]
  refine ⟨?_, ?_, ?_⟩
  · intro hnil
    rw [hbr, hnil]
    rfl
  · intro hne hio
    have heq := lfold_all_clean (matchedLists v n exts) false [] hne hio
    rw [hbr, heq]
    refine ⟨rfl, emitDedup_emitted_nodup _ _, fun x => ?_⟩
    simp [mem_emitDedup_emitted]
  · intro l p rs hsplit hl hp
    rw [hbr, hsplit]
    exact lfold_io_error l p rs false [] hl hp

/-- Witness for C3: a base mount and an overlay mount at the same prefix;
the shared name h is listed once, the overlay-only name o as well. -/
theorem list_files_union_witness :
    normalize_virtual_path ['c'] = some ['c'] ∧
    Vfs.list_files ⟨[⟨['c'], enumBackend [['h']] []⟩,
      ⟨['c'], enumBackend [['h'], ['o']] []⟩]⟩ ['c'] [] false =
      (Result.ok, [['h'], ['o']]) := by
  refine ⟨by decide, ?_⟩
  have := ((list_files_union ⟨[⟨['c'], enumBackend [['h']] []⟩,
    ⟨['c'], enumBackend [['h'], ['o']] []⟩]⟩ ['c'] ['c'] [] (by decide)).2.1
    (by decide) (by decide)).1
  exact this.trans (by decide)

/-- The per-mount partition of the deduplicated callback stream: segment i
holds the names emitted while mount i (in newest-first order) was being
enumerated. -/
def lf_segments (seen : List Str) : List (List Str) → List (List Str)
  | [] => []
  | l :: ls =>
    let e := emitDedup seen l
    e.2 :: lf_segments e.1 ls

theorem lfold_snd_segments (l : List (Result × List Str)) (matched : Bool) (seen : List Str)
    (hio : ∀ p ∈ l, p.1 ≠ Result.io_error) :
    (lfold l matched seen).2 = (lf_segments seen (l.map Prod.snd)).flatten := by
  induction l generalizing matched seen with
  | nil => rfl
  | cons p rest ih =>
    have hp : p.1 ≠ Result.io_error := hio p (List.mem_cons_self p rest)
    have := ih true (emitDedup seen p.2).1 (fun q hq => hio q (List.mem_cons_of_mem p hq))
    simp [lfold, hp, this, lf_segments]

theorem mem_lf_segments_getD (ls : List (List Str)) :
    ∀ (seen : List Str) (i : Nat) (x : Str),
    x ∈ (lf_segments seen ls).getD i [] ↔
      (i < ls.length ∧ x ∈ ls.getD i [] ∧ x ∉ seen ∧ ∀ j < i, x ∉ ls.getD j []) := by
  induction ls with
  | nil =>
    intro seen i x
    simp [lf_segments]
  | cons l ls ih =>
    intro seen i x
    cases i with
    | zero =>
      simp [lf_segments, mem_emitDedup_emitted]
    | succ i =>
      have hgd : (lf_segments seen (l :: ls)).getD (i + 1) [] =
          (lf_segments (emitDedup seen l).1 ls).getD i [] := by
        simp [lf_segments]
      rw [hgd, ih]
      have hseen : x ∉ (emitDedup seen l).1 ↔ x ∉ seen ∧ x ∉ l := by
        rw [mem_emitDedup_seen]
        tauto
      have hsplit : (∀ j < i + 1, x ∉ (l :: ls).getD j []) ↔
          (x ∉ l ∧ ∀ j < i, x ∉ ls.getD j []) := by
        constructor
        · intro hj
          refine ⟨by simpa using hj 0 (Nat.succ_pos i), fun j hji => ?_⟩
          simpa using hj (j + 1) (Nat.succ_lt_succ hji)
        · rintro ⟨h0, hj⟩ j hji
          cases j with
          | zero => simpa using h0
          | succ j => simpa using hj j (Nat.lt_of_succ_lt_succ hji)
      constructor
      · rintro ⟨h1, h2, h3, h4⟩
        have := hseen.mp h3
        exact ⟨Nat.succ_lt_succ h1, by simpa using h2, this.1, hsplit.mpr ⟨this.2, h4⟩⟩
      · rintro ⟨h1, h2, h3, h4⟩
        have := hsplit.mp h4
        exact ⟨Nat.lt_of_succ_lt_succ h1, by simpa using h2,
          hseen.mpr ⟨h3, this.1⟩, this.2⟩

/-- Claim C10: with deduplication on, list_files queries the matching
mounts newest first, and the callback stream is the concatenation of
per-mount segments in that order, where a name appears in the segment of
mount i exactly when that mount contributed it and no newer matching
mount did: the retained occurrence of a duplicated name is the newest
contributing mount's one. -/
theorem list_files_newest_first_dedup (v : Vfs) (path n : Str) (exts : List Str)
    (h : normalize_virtual_path path = some n)
    (hio : ∀ p ∈ matchedLists v n exts, p.1 ≠ Result.io_error) :
    (Vfs.list_files v path exts false).2 =
      (lf_segments [] ((matchedLists v n exts).map Prod.snd)).flatten ∧
    (∀ i x, x ∈ (lf_segments [] ((matchedLists v n exts).map Prod.snd)).getD i [] ↔
      (i < (matchedLists v n exts).length ∧
       x ∈ ((matchedLists v n exts).map Prod.snd).getD i [] ∧
       ∀ j < i, x ∉ ((matchedLists v n exts).map Prod.snd).getD j [])) := by
  have hbr : Vfs.list_files v path exts false = lfold (matchedLists v n exts) false [] := by
    unfold Vfs.list_files matchedLists
    simp [h, lf_go_eq_lfold]
  constructor
  · rw [hbr]
    exact lfold_snd_segments _ false [] hio
  · intro i x
    rw [mem_lf_segments_getD]
    simp [List.length_map]

/-- Witness for C10: with the base and overlay mounts of the C3 scenario,
the stream is the join of the segments, the newer mount's segment holds
both names and the older mount's segment is empty. -/
theorem list_files_newest_first_dedup_witness :
    (Vfs.list_files ⟨[⟨['c'], enumBackend [['h']] []⟩,
      ⟨['c'], enumBackend [['h'], ['o']] []⟩]⟩ ['c'] [] false).2 =
      (lf_segments [] ((matchedLists ⟨[⟨['c'], enumBackend [['h']] []⟩,
        ⟨['c'], enumBackend [['h'], ['o']] []⟩]⟩ ['c'] []).map Prod.snd)).flatten ∧
    lf_segments [] ((matchedLists ⟨[⟨['c'], enumBackend [['h']] []⟩,
      ⟨['c'], enumBackend [['h'], ['o']] []⟩]⟩ ['c'] []).map Prod.snd) =
      [[['h'], ['o']], []] := by
  refine ⟨(list_files_newest_first_dedup ⟨[⟨['c'], enumBackend [['h']] []⟩,
    ⟨['c'], enumBackend [['h'], ['o']] []⟩]⟩ ['c'] ['c'] [] (by decide) (by decide)).1,
    by decide⟩

theorem ld_synth_mem (n : Str) (ad : Bool) (c : Str) (m : MountPoint)
    (ms : List MountPoint) :
    ∀ seen : List Str, m ∈ ms → child_mount_name n m.mount = some c →
    c ∈ (ld_synth n ad ms seen).2 ∨ c ∈ seen := by
  induction ms with
  | nil =>
    intro seen hm
    exact absurd hm (List.not_mem_nil m)
  | cons m0 rest ih =>
    intro seen hm hc
    rcases List.mem_cons.mp hm with hm0 | hmr
    · subst hm0
      simp only [ld_synth, hc]
      cases ad with
      | true => simp [ld_emit]
      | false =>
        by_cases hcs : c ∈ seen
        · exact Or.inr hcs
        · simp [ld_emit, hcs]
    · cases hc0 : child_mount_name n m0.mount with
      | none =>
        simp only [ld_synth, hc0]
        exact ih seen hmr hc
      | some c0 =>
        simp only [ld_synth, hc0]
        rcases ih (ld_emit ad seen c0).1 hmr hc with hin | hin
        · exact Or.inl (by simp [hin])
        · cases ad with
          | true =>
            have he : ld_emit true seen c0 = (seen, [c0]) := by
              simp [ld_emit]
            rw [he] at hin
            exact Or.inr hin
          | false =>
            by_cases hcs : c0 ∈ seen
            · have he : ld_emit false seen c0 = (seen, []) := by
                simp [ld_emit, hcs]
              rw [he] at hin
              exact Or.inr hin
            · have he : ld_emit false seen c0 = (c0 :: seen, [c0]) := by
                simp [ld_emit, hcs]
              rw [he] at hin
              rcases List.mem_cons.mp hin with h0 | h0
              · exact Or.inl (by simp [he, h0])
              · exact Or.inr h0

/-- Claim C7: for every mount whose prefix lies strictly below the listed
path, list_dirs emits the next path segment of that prefix as a synthetic
directory name, regardless of what any backend reports; in particular a
mount at shaders makes list_dirs at the root include shaders. -/
theorem list_dirs_synthetic_mount_names (v : Vfs) (path n : Str) (ad : Bool)
    (m : MountPoint) (c : Str)
    (h : normalize_virtual_path path = some n) (hm : m ∈ v.mounts)
    (hc : child_mount_name n m.mount = some c) :
    c ∈ (Vfs.list_dirs v path ad).2 := by
  unfold Vfs.list_dirs
  simp only [h]
  rcases ld_synth_mem n ad c m v.mounts [] hm hc with hin | hin
  · simp [hin]
  · exact absurd hin (List.not_mem_nil c)

/-- Witness for C7: a single mount at sh and no mount at the root; listing
the root still shows the synthetic directory sh. -/
theorem list_dirs_synthetic_mount_names_witness :
    normalize_virtual_path [] = some [] ∧
    child_mount_name [] ['s', 'h'] = some ['s', 'h'] ∧
    ['s', 'h'] ∈ (Vfs.list_dirs ⟨[⟨['s', 'h'], nullBackend⟩]⟩ [] false).2 := by
  refine ⟨by decide, by decide, ?_⟩
  exact list_dirs_synthetic_mount_names ⟨[⟨['s', 'h'], nullBackend⟩]⟩ [] [] false
    ⟨['s', 'h'], nullBackend⟩ ['s', 'h'] (by decide) (by simp) (by decide)

theorem ld_synth_seen_nil_iff (n : Str) (ms : List MountPoint) :
    ∀ seen : List Str, (ld_synth n false ms seen).1 = [] ↔
      (seen = [] ∧ (ld_synth n false ms seen).2 = []) := by
  induction ms with
  | nil =>
    intro seen
    simp [ld_synth]
  | cons m0 rest ih =>
    intro seen
    cases hc0 : child_mount_name n m0.mount with
    | none =>
      simp only [ld_synth, hc0]
      exact ih seen
    | some c0 =>
      simp only [ld_synth, hc0]
      by_cases hcs : c0 ∈ seen
      · have he : ld_emit false seen c0 = (seen, []) := by
          simp [ld_emit, hcs]
        rw [he]
        simpa using ih seen
      · have he : ld_emit false seen c0 = (c0 :: seen, [c0]) := by
          simp [ld_emit, hcs]
        rw [he]
        have hr := ih (c0 :: seen)
        constructor
        · intro h1
          exact absurd (hr.mp (by simpa using h1)).1 (List.cons_ne_nil c0 seen)
        · rintro ⟨h1, h2⟩
          exact absurd h2 (by simp)

theorem ld_synth_true_seen (n : Str) (ms : List MountPoint) :
    ∀ seen : List Str, (ld_synth n true ms seen).1 = seen := by
  induction ms with
  | nil =>
    intro seen
    rfl
  | cons m0 rest ih =>
    intro seen
    cases hc0 : child_mount_name n m0.mount with
    | none =>
      simp only [ld_synth, hc0]
      exact ih seen
    | some c0 =>
      simp only [ld_synth, hc0]
      simpa [ld_emit] using ih seen

theorem ld_go_ok_iff (n : Str) (ad : Bool) (ms : List MountPoint) :
    ∀ (matched : Bool) (seen : List Str),
    (∀ m ∈ ms, ∀ rel, relative_to_mount n m.mount = some rel →
      (m.backend.list_dirs rel true).1 ≠ Result.io_error) →
    ((ld_go n ad ms matched seen).1 = Result.ok ↔
      (matched = true ∨ (∃ m ∈ ms, relative_to_mount n m.mount ≠ none) ∨ seen ≠ [])) := by
  induction ms with
  | nil =>
    intro matched seen _
    by_cases hcond : (matched || !seen.isEmpty) = true
    · simp only [ld_go, if_pos hcond, true_iff]
      have h2 : matched = true ∨ seen ≠ [] := by
        simpa using hcond
      rcases h2 with h | h
      · exact Or.inl h
      · exact Or.inr (Or.inr h)
    · simp only [ld_go, if_neg hcond]
      have h2 : ¬(matched = true ∨ seen ≠ []) := by
        intro hc
        refine hcond ?_
        simpa using hc
      constructor
      · intro h
        exact absurd h (by simp)
      · rintro (h | h | h)
        · exact absurd (Or.inl h) h2
        · simp at h
        · exact absurd (Or.inr h) h2
  | cons m0 rest ih =>
    intro matched seen hio
    cases hr : relative_to_mount n m0.mount with
    | none =>
      simp only [ld_go, hr]
      rw [ih matched seen (fun m hm => hio m (List.mem_cons_of_mem m0 hm))]
      constructor
      · rintro (h | ⟨m, hm, hmr⟩ | h)
        · exact Or.inl h
        · exact Or.inr (Or.inl ⟨m, List.mem_cons_of_mem m0 hm, hmr⟩)
        · exact Or.inr (Or.inr h)
      · rintro (h | ⟨m, hm, hmr⟩ | h)
        · exact Or.inl h
        · rcases List.mem_cons.mp hm with hm0 | hm0
          · exact absurd (hm0 ▸ hr) hmr
          · exact Or.inr (Or.inl ⟨m, hm0, hmr⟩)
        · exact Or.inr (Or.inr h)
    | some rel =>
      have hnio : (m0.backend.list_dirs rel true).1 ≠ Result.io_error :=
        hio m0 (List.mem_cons_self m0 rest) rel hr
      simp only [ld_go, hr, if_neg hnio]
      rw [ih true _ (fun m hm => hio m (List.mem_cons_of_mem m0 hm))]
      simp only [true_or, true_iff]
      exact Or.inr (Or.inl ⟨m0, List.mem_cons_self m0 rest, by simp [hr]⟩)

theorem ld_go_ok_or_not_found (n : Str) (ad : Bool) (ms : List MountPoint) :
    ∀ (matched : Bool) (seen : List Str),
    (∀ m ∈ ms, ∀ rel, relative_to_mount n m.mount = some rel →
      (m.backend.list_dirs rel true).1 ≠ Result.io_error) →
    ((ld_go n ad ms matched seen).1 = Result.ok ∨
     (ld_go n ad ms matched seen).1 = Result.not_found) := by
  induction ms with
  | nil =>
    intro matched seen _
    by_cases hcond : (matched || !seen.isEmpty) = true
    · simp only [ld_go, if_pos hcond]
      exact Or.inl trivial
    · simp only [ld_go, if_neg hcond]
      exact Or.inr trivial
  | cons m0 rest ih =>
    intro matched seen hio
    cases hr : relative_to_mount n m0.mount with
    | none =>
      simp only [ld_go, hr]
      exact ih matched seen (fun m hm => hio m (List.mem_cons_of_mem m0 hm))
    | some rel =>
      have hnio : (m0.backend.list_dirs rel true).1 ≠ Result.io_error :=
        hio m0 (List.mem_cons_self m0 rest) rel hr
      simp only [ld_go, hr, if_neg hnio]
      exact ih true _ (fun m hm => hio m (List.mem_cons_of_mem m0 hm))

/-- Counterexample to claim C4: one mount at s, listing the root with
allow_duplicates = true.  The synthetic entry s is produced (it is in the
callback stream), no backend reports io_error, yet the result is
not_found rather than ok, because with allow_duplicates = true the emit
lambda never records names in the seen set that the success test
consults. -/
theorem list_dirs_allow_duplicates_counterexample :
    (Vfs.list_dirs ⟨[⟨['s'], nullBackend⟩]⟩ [] true).2 = [['s']] ∧
    (Vfs.list_dirs ⟨[⟨['s'], nullBackend⟩]⟩ [] true).1 = Result.not_found := by
  constructor
  · decide
  · decide

/-- Claim C4 as amended: with allow_duplicates = false (the default) and no
contributing backend reporting io_error, list_dirs returns ok exactly when
some mount matched the path for real enumeration or some synthetic
mount-point entry was produced, and not_found otherwise; with
allow_duplicates = true, however, it returns ok exactly when some mount
matched, so purely synthetic output yields not_found. -/
theorem list_dirs_success_condition (v : Vfs) (path n : Str)
    (h : normalize_virtual_path path = some n)
    (hio : ∀ m ∈ v.mounts, ∀ rel, relative_to_mount n m.mount = some rel →
      (m.backend.list_dirs rel true).1 ≠ Result.io_error) :
    ((Vfs.list_dirs v path false).1 = Result.ok ↔
      ((∃ m ∈ v.mounts, relative_to_mount n m.mount ≠ none) ∨
        (ld_synth n false v.mounts []).2 ≠ [])) ∧
    ((Vfs.list_dirs v path false).1 ≠ Result.ok →
      (Vfs.list_dirs v path false).1 = Result.not_found) ∧
    ((Vfs.list_dirs v path true).1 = Result.ok ↔
      (∃ m ∈ v.mounts, relative_to_mount n m.mount ≠ none)) := by
  have hrev : ∀ m ∈ v.mounts.reverse, ∀ rel, relative_to_mount n m.mount = some rel →
      (m.backend.list_dirs rel true).1 ≠ Result.io_error := by
    intro m hm
    exact hio m (List.mem_reverse.mp hm)
  refine ⟨?_, ?_, ?_⟩
  · unfold Vfs.list_dirs
    simp only [h]
    rw [ld_go_ok_iff n false v.mounts.reverse false (ld_synth n false v.mounts []).1 hrev]
    have hex : (∃ m ∈ v.mounts.reverse, relative_to_mount n m.mount ≠ none) ↔
        (∃ m ∈ v.mounts, relative_to_mount n m.mount ≠ none) := by
      constructor
      · rintro ⟨m, hm, hmr⟩
        exact ⟨m, List.mem_reverse.mp hm, hmr⟩
      · rintro ⟨m, hm, hmr⟩
        exact ⟨m, List.mem_reverse.mpr hm, hmr⟩
    have hseen : (ld_synth n false v.mounts []).1 ≠ [] ↔
        (ld_synth n false v.mounts []).2 ≠ [] := by
      have hiff := ld_synth_seen_nil_iff n v.mounts []
      constructor
      · intro h1 h2
        exact h1 (hiff.mpr ⟨rfl, h2⟩)
      · intro h1 h2
        exact h1 (hiff.mp h2).2
    rw [hex, hseen]
    simp
  · unfold Vfs.list_dirs
    simp only [h]
    intro hne
    rcases ld_go_ok_or_not_found n false v.mounts.reverse false
      (ld_synth n false v.mounts []).1 hrev with hok | hnf
    · exact absurd hok hne
    · exact hnf
  · unfold Vfs.list_dirs
    simp only [h]
    rw [ld_synth_true_seen n v.mounts []]
    rw [ld_go_ok_iff n true v.mounts.reverse false [] hrev]
    constructor
    · rintro (hf | ⟨m, hm, hmr⟩ | hn)
      · exact absurd hf (by simp)
      · exact ⟨m, List.mem_reverse.mp hm, hmr⟩
      · exact absurd rfl hn
    · rintro ⟨m, hm, hmr⟩
      exact Or.inr (Or.inl ⟨m, List.mem_reverse.mpr hm, hmr⟩)

/-- Witness for C4 as amended: a root mount matching the listed path makes
list_dirs return ok under both deduplication settings. -/
theorem list_dirs_success_condition_witness :
    normalize_virtual_path ['d'] = some ['d'] ∧
    (Vfs.list_dirs ⟨[⟨[], enumBackend [] []⟩]⟩ ['d'] false).1 = Result.ok ∧
    (Vfs.list_dirs ⟨[⟨[], enumBackend [] []⟩]⟩ ['d'] true).1 = Result.ok := by
  refine ⟨by decide, ?_, ?_⟩
  · exact (list_dirs_success_condition ⟨[⟨[], enumBackend [] []⟩]⟩ ['d'] ['d']
      (by decide) (by intro m hm rel hrel; simp at hm; subst hm; simp [enumBackend])).1.mpr
      (Or.inl ⟨⟨[], enumBackend [] []⟩, by simp, by decide⟩)
  · exact (list_dirs_success_condition ⟨[⟨[], enumBackend [] []⟩]⟩ ['d'] ['d']
      (by decide) (by intro m hm rel hrel; simp at hm; subst hm; simp [enumBackend])).2.2.mpr
      ⟨⟨[], enumBackend [] []⟩, by simp, by decide⟩

theorem splitComps_eq (s : Str) :
    splitComps s = (if (s.foldr splitCompsStep ([], [])).1 = []
      then (s.foldr splitCompsStep ([], [])).2
      else (s.foldr splitCompsStep ([], [])).1 :: (s.foldr splitCompsStep ([], [])).2) := rfl

theorem splitCompsStep_sep (c : Char) (acc : Str × List Str) (hc : isSep c = true) :
    splitCompsStep c acc = ([], if acc.1 = [] then acc.2 else acc.1 :: acc.2) := by
  unfold splitCompsStep
  rw [if_pos hc]

theorem splitCompsStep_nosep (c : Char) (acc : Str × List Str) (hc : isSep c = false) :
    splitCompsStep c acc = (c :: acc.1, acc.2) := by
  unfold splitCompsStep
  rw [if_neg (by simp [hc])]

theorem splitComps_foldr_good (s : Str) :
    (∀ c ∈ (s.foldr splitCompsStep ([], [])).1, ¬isSep c) ∧
    (∀ x ∈ (s.foldr splitCompsStep ([], [])).2, x ≠ [] ∧ ∀ c ∈ x, ¬isSep c) := by
  induction s with
  | nil => simp
  | cons c s ih =>
    rw [List.foldr_cons]
    rcases hFs : s.foldr splitCompsStep ([], []) with ⟨u, v⟩
    rw [hFs] at ih
    obtain ⟨ih1, ih2⟩ := ih
    by_cases hc : isSep c = true
    · rw [splitCompsStep_sep c (u, v) hc]
      refine ⟨by simp, ?_⟩
      intro x hx
      simp only at hx
      by_cases h1 : u = []
      · rw [if_pos h1] at hx
        exact ih2 x hx
      · rw [if_neg h1] at hx
        rcases List.mem_cons.mp hx with hx0 | hx0
        · subst hx0
          exact ⟨h1, ih1⟩
        · exact ih2 x hx0
    · rw [splitCompsStep_nosep c (u, v) (by simpa using hc)]
      refine ⟨?_, ih2⟩
      intro c' hc'
      rcases List.mem_cons.mp hc' with h | h
      · subst h
        exact hc
      · exact ih1 c' h

theorem splitComps_good (s : Str) :
    ∀ x ∈ splitComps s, x ≠ [] ∧ ∀ c ∈ x, ¬isSep c := by
  intro x hx
  have hg := splitComps_foldr_good s
  rw [splitComps_eq] at hx
  rcases hFs : s.foldr splitCompsStep ([], []) with ⟨u, v⟩
  rw [hFs] at hx hg
  simp only at hx hg
  obtain ⟨hg1, hg2⟩ := hg
  by_cases h1 : u = []
  · rw [if_pos h1] at hx
    exact hg2 x hx
  · rw [if_neg h1] at hx
    rcases List.mem_cons.mp hx with hx0 | hx0
    · subst hx0
      exact ⟨h1, hg1⟩
    · exact hg2 x hx0

theorem foldr_splitCompsStep_nosep (p : Str) (acc : Str × List Str)
    (h : ∀ c ∈ p, ¬isSep c) :
    p.foldr splitCompsStep acc = (p ++ acc.1, acc.2) := by
  induction p with
  | nil => simp
  | cons c p ih =>
    rw [List.foldr_cons, ih (fun d hd => h d (List.mem_cons_of_mem c hd))]
    have hc : isSep c = false := by
      have := h c (List.mem_cons_self c p)
      simpa using this
    rw [splitCompsStep_nosep c _ hc]
    simp

theorem foldr_splitCompsStep_slash (s : Str) :
    ('/' :: s).foldr splitCompsStep ([], []) = ([], splitComps s) := by
  rw [List.foldr_cons, splitCompsStep_sep '/' _ (by decide), splitComps_eq]

theorem splitComps_joinSlash (ps : List Str)
    (h : ∀ x ∈ ps, x ≠ [] ∧ ∀ c ∈ x, ¬isSep c) :
    splitComps (joinSlash ps) = ps := by
  induction ps with
  | nil => rfl
  | cons p ps ih =>
    have hp := h p (List.mem_cons_self p ps)
    cases ps with
    | nil =>
      show splitComps (joinSlash [p]) = [p]
      unfold splitComps
      rw [show joinSlash [p] = p from rfl,
        foldr_splitCompsStep_nosep p ([], []) hp.2]
      simp [hp.1]
    | cons q ps' =>
      have hjoin : joinSlash (p :: q :: ps') = p ++ '/' :: joinSlash (q :: ps') := rfl
      unfold splitComps
      rw [hjoin, List.foldr_append, foldr_splitCompsStep_slash,
        foldr_splitCompsStep_nosep p ([], splitComps (joinSlash (q :: ps'))) hp.2]
      rw [ih (fun x hx => h x (List.mem_cons_of_mem p hx))]
      simp [hp.1]

theorem collapseStep_dot (rd : Bool) (acc : List Str) :
    collapseStep rd acc ['.'] = acc := rfl

theorem collapseStep_dotdot_nil (rd : Bool) :
    collapseStep rd [] ['.', '.'] = if rd then [] else [['.', '.']] := rfl

theorem collapseStep_dotdot_cons (rd : Bool) (top : Str) (rest : List Str) :
    collapseStep rd (top :: rest) ['.', '.'] =
      if top = ['.', '.'] then ['.', '.'] :: top :: rest else rest := rfl

theorem collapseStep_other (rd : Bool) (acc : List Str) (c : Str)
    (h1 : c ≠ ['.']) (h2 : c ≠ ['.', '.']) : collapseStep rd acc c = c :: acc := by
  unfold collapseStep
  rw [if_neg h1, if_neg h2]

theorem collapseStep_cases (rd : Bool) (acc : List Str) (c : Str) :
    ∀ y ∈ collapseStep rd acc c, y ∈ acc ∨ y = c ∨ y = ['.', '.'] := by
  intro y hy
  by_cases h1 : c = ['.']
  · subst h1
    rw [collapseStep_dot] at hy
    exact Or.inl hy
  · by_cases h2 : c = ['.', '.']
    · subst h2
      cases acc with
      | nil =>
        rw [collapseStep_dotdot_nil] at hy
        cases rd with
        | true => simp at hy
        | false =>
          simp at hy
          exact Or.inr (Or.inl hy)
      | cons top rest =>
        rw [collapseStep_dotdot_cons] at hy
        by_cases h3 : top = ['.', '.']
        · rw [if_pos h3] at hy
          rcases List.mem_cons.mp hy with hy0 | hy0
          · exact Or.inr (Or.inl hy0)
          · exact Or.inl hy0
        · rw [if_neg h3] at hy
          exact Or.inl (List.mem_cons_of_mem top hy)
    · rw [collapseStep_other rd acc c h1 h2] at hy
      rcases List.mem_cons.mp hy with hy0 | hy0
      · exact Or.inr (Or.inl hy0)
      · exact Or.inl hy0

theorem foldl_collapseStep_subset (rd : Bool) (l : List Str) :
    ∀ (acc : List Str) (x : Str), x ∈ l.foldl (collapseStep rd) acc →
      x ∈ acc ∨ x ∈ l ∨ x = ['.', '.'] := by
  induction l with
  | nil =>
    intro acc x hx
    exact Or.inl hx
  | cons c l ih =>
    intro acc x hx
    rw [List.foldl_cons] at hx
    rcases ih (collapseStep rd acc c) x hx with h | h | h
    · rcases collapseStep_cases rd acc c x h with h' | h' | h'
      · exact Or.inl h'
      · exact Or.inr (Or.inl (h' ▸ List.mem_cons_self c l))
      · exact Or.inr (Or.inr h')
    · exact Or.inr (Or.inl (List.mem_cons_of_mem c h))
    · exact Or.inr (Or.inr h)

theorem collapse_subset (rd : Bool) (l : List Str) :
    ∀ x ∈ collapse rd l, x ∈ l ∨ x = ['.', '.'] := by
  intro x hx
  unfold collapse at hx
  rcases foldl_collapseStep_subset rd l [] x (List.mem_reverse.mp hx) with h | h | h
  · exact absurd h (List.not_mem_nil x)
  · exact Or.inl h
  · exact Or.inr h

theorem collapseStep_no_dot (rd : Bool) (acc : List Str) (c : Str)
    (h : ['.'] ∉ acc) : ['.'] ∉ collapseStep rd acc c := by
  intro hc
  rcases collapseStep_cases rd acc c ['.'] hc with h' | h' | h'
  · exact h h'
  · rw [← h', collapseStep_dot rd acc] at hc
    exact h hc
  · simp at h'

theorem collapse_no_dot (rd : Bool) (l : List Str) : ['.'] ∉ collapse rd l := by
  unfold collapse
  rw [List.mem_reverse]
  have key : ∀ (l acc : List Str), ['.'] ∉ acc →
      ['.'] ∉ l.foldl (collapseStep rd) acc := by
    intro l
    induction l with
    | nil => intro acc h; exact h
    | cons c l ih =>
      intro acc h
      rw [List.foldl_cons]
      exact ih _ (collapseStep_no_dot rd acc c h)
  exact key l [] (List.not_mem_nil _)

theorem collapse_rootdir_no_dotdot (l : List Str) : ['.', '.'] ∉ collapse true l := by
  unfold collapse
  rw [List.mem_reverse]
  have key : ∀ (l acc : List Str), ['.', '.'] ∉ acc →
      ['.', '.'] ∉ l.foldl (collapseStep true) acc := by
    intro l
    induction l with
    | nil => intro acc h; exact h
    | cons c l ih =>
      intro acc h
      rw [List.foldl_cons]
      refine ih _ ?_
      by_cases h1 : c = ['.']
      · subst h1
        rw [collapseStep_dot]
        exact h
      · by_cases h2 : c = ['.', '.']
        · subst h2
          cases acc with
          | nil =>
            rw [collapseStep_dotdot_nil]
            simp
          | cons top rest =>
            rw [collapseStep_dotdot_cons]
            by_cases h3 : top = ['.', '.']
            · exact absurd (h3 ▸ List.mem_cons_self top rest) h
            · rw [if_neg h3]
              exact fun hc => h (List.mem_cons_of_mem top hc)
        · rw [collapseStep_other true acc c h1 h2]
          intro hc
          rcases List.mem_cons.mp hc with hc0 | hc0
          · exact h2 hc0.symm
          · exact h hc0
  exact key l [] (List.not_mem_nil _)

theorem collapse_id (rd : Bool) (l : List Str)
    (h : ∀ x ∈ l, x ≠ ['.'] ∧ x ≠ ['.', '.']) : collapse rd l = l := by
  unfold collapse
  have key : ∀ (l acc : List Str), (∀ x ∈ l, x ≠ ['.'] ∧ x ≠ ['.', '.']) →
      l.foldl (collapseStep rd) acc = l.reverse ++ acc := by
    intro l
    induction l with
    | nil => intro acc _; simp
    | cons c l ih =>
      intro acc hc
      have hc0 := hc c (List.mem_cons_self c l)
      rw [List.foldl_cons]
      rw [collapseStep_other rd acc c hc0.1 hc0.2,
        ih (c :: acc) (fun x hx => hc x (List.mem_cons_of_mem c hx))]
      simp
  rw [key l [] h]
  simp

theorem foldl_collapseStep_dots_bottom (rd : Bool) (l : List Str) :
    ∀ acc : List Str,
    (∃ a b, acc = a ++ b ∧ ['.', '.'] ∉ a ∧ ∀ x ∈ b, x = ['.', '.']) →
    (∃ a b, l.foldl (collapseStep rd) acc = a ++ b ∧ ['.', '.'] ∉ a ∧
      ∀ x ∈ b, x = ['.', '.']) := by
  induction l with
  | nil => intro acc h; exact h
  | cons c l ih =>
    intro acc h
    rw [List.foldl_cons]
    refine ih _ ?_
    obtain ⟨a, b, hab, hna, hb⟩ := h
    by_cases h1 : c = ['.']
    · subst h1
      rw [collapseStep_dot]
      exact ⟨a, b, hab, hna, hb⟩
    · by_cases h2 : c = ['.', '.']
      · subst h2
        cases acc with
        | nil =>
          rw [collapseStep_dotdot_nil]
          cases rd with
          | true =>
            exact ⟨[], [], rfl, List.not_mem_nil _, fun x hx => absurd hx (List.not_mem_nil x)⟩
          | false =>
            refine ⟨[], [['.', '.']], by simp, List.not_mem_nil _, ?_⟩
            intro x hx
            rcases List.mem_cons.mp hx with hx0 | hx0
            · exact hx0
            · exact absurd hx0 (List.not_mem_nil x)
        | cons top rest =>
          rw [collapseStep_dotdot_cons]
          by_cases h3 : top = ['.', '.']
          · rw [if_pos h3]
            have ha : a = [] := by
              cases ha : a with
              | nil => rfl
              | cons y ys =>
                exfalso
                rw [ha, List.cons_append, List.cons.injEq] at hab
                exact hna (ha ▸ (hab.1 ▸ h3) ▸ List.mem_cons_self y ys)
            rw [ha, List.nil_append] at hab
            refine ⟨[], ['.', '.'] :: top :: rest, by simp, List.not_mem_nil _, ?_⟩
            intro x hx
            rcases List.mem_cons.mp hx with hx0 | hx0
            · exact hx0
            · exact hb x (hab ▸ hx0)
          · rw [if_neg h3]
            cases ha : a with
            | nil =>
              exfalso
              rw [ha, List.nil_append] at hab
              exact h3 (hb top (hab ▸ List.mem_cons_self top rest))
            | cons y ys =>
              rw [ha, List.cons_append, List.cons.injEq] at hab
              refine ⟨ys, b, hab.2, fun hc => hna (ha ▸ List.mem_cons_of_mem y hc), hb⟩
      · rw [collapseStep_other rd acc c h1 h2]
        exact ⟨c :: a, b, by rw [hab, List.cons_append], by
          intro hc
          rcases List.mem_cons.mp hc with hc0 | hc0
          · exact h2 hc0.symm
          · exact hna hc0, hb⟩

theorem collapse_dotdot_head (rd : Bool) (l : List Str)
    (h : ['.', '.'] ∈ collapse rd l) :
    ∃ rest, collapse rd l = ['.', '.'] :: rest := by
  obtain ⟨a, b, hab, hna, hb⟩ :=
    foldl_collapseStep_dots_bottom rd l []
      ⟨[], [], rfl, List.not_mem_nil _, fun x hx => absurd hx (List.not_mem_nil x)⟩
  unfold collapse at h ⊢
  rw [hab] at h ⊢
  have hbne : b ≠ [] := by
    intro hbnil
    rw [hbnil, List.append_nil] at h
    exact hna (List.mem_reverse.mp h)
  rw [List.reverse_append]
  cases hbr : b.reverse with
  | nil => exact absurd (List.reverse_eq_nil_iff.mp hbr) hbne
  | cons y ys =>
    have hy : y = ['.', '.'] := hb y (List.mem_reverse.mp (hbr ▸ List.mem_cons_self y ys))
    exact ⟨ys ++ a.reverse, by rw [hy, List.cons_append]⟩

theorem joinSlash_ne_nil (ps : List Str) (h : ∀ x ∈ ps, x ≠ []) (hne : ps ≠ []) :
    joinSlash ps ≠ [] := by
  cases ps with
  | nil => exact absurd rfl hne
  | cons p ps =>
    cases ps with
    | nil => exact h p (List.mem_cons_self p [])
    | cons q ps' =>
      show p ++ '/' :: joinSlash (q :: ps') ≠ []
      simp

theorem joinSlash_cons_form (ps : List Str)
    (h : ∀ x ∈ ps, x ≠ [] ∧ ∀ c ∈ x, ¬isSep c) (hne : ps ≠ []) :
    ∃ d t, joinSlash ps = d :: t ∧ isSep d = false := by
  cases ps with
  | nil => exact absurd rfl hne
  | cons p ps =>
    have hp := h p (List.mem_cons_self p ps)
    cases hd : p with
    | nil => exact absurd hd hp.1
    | cons d t0 =>
      have hdns : isSep d = false := by
        simpa using hp.2 d (hd ▸ List.mem_cons_self d t0)
      cases ps with
      | nil => exact ⟨d, t0, rfl, hdns⟩
      | cons q ps' => exact ⟨d, t0 ++ '/' :: joinSlash (q :: ps'), rfl, hdns⟩

theorem joinSlash_eq_singleton (ps : List Str) (h : ∀ x ∈ ps, x ≠ []) (c : Char)
    (hc : joinSlash ps = [c]) : [c] ∈ ps := by
  cases ps with
  | nil => cases hc
  | cons p ps =>
    cases ps with
    | nil => exact (show joinSlash [p] = p from rfl) ▸ hc ▸ List.mem_cons_self [c] []
    | cons q ps' =>
      exfalso
      have hc' : p ++ '/' :: joinSlash (q :: ps') = [c] := hc
      cases hp0 : p with
      | nil => exact h p (List.mem_cons_self p (q :: ps')) hp0
      | cons a t =>
        rw [hp0, List.cons_append, List.cons.injEq] at hc'
        have h2 := hc'.2
        simp at h2

theorem mem_of_getLast?_eq (l : Str) (c : Char) (h : l.getLast? = some c) : c ∈ l := by
  induction l with
  | nil => cases h
  | cons a t ih =>
    cases t with
    | nil =>
      have : a = c := by simpa using h
      exact this ▸ List.mem_cons_self a []
    | cons b t' =>
      rw [List.getLast?_cons_cons] at h
      exact List.mem_cons_of_mem a (ih h)

theorem joinSlash_getLast_not_sep (ps : List Str) :
    (∀ x ∈ ps, x ≠ [] ∧ ∀ c ∈ x, ¬isSep c) → ps ≠ [] →
    ∀ c : Char, (joinSlash ps).getLast? = some c → isSep c = false := by
  induction ps with
  | nil => intro _ hne; exact absurd rfl hne
  | cons p ps ih =>
    intro h _ c hc
    cases ps with
    | nil =>
      have hmem : c ∈ p := mem_of_getLast?_eq p c (by
        rw [show joinSlash [p] = p from rfl] at hc
        exact hc)
      simpa using (h p (List.mem_cons_self p [])).2 c hmem
    | cons q ps' =>
      have hgood : ∀ x ∈ q :: ps', x ≠ [] ∧ ∀ d ∈ x, ¬isSep d :=
        fun x hx => h x (List.mem_cons_of_mem p hx)
      have hJne : joinSlash (q :: ps') ≠ [] :=
        joinSlash_ne_nil _ (fun x hx => (hgood x hx).1) (by simp)
      rw [show joinSlash (p :: q :: ps') = p ++ '/' :: joinSlash (q :: ps') from rfl,
        List.getLast?_append_cons] at hc
      cases hJ : joinSlash (q :: ps') with
      | nil => exact absurd hJ hJne
      | cons j js =>
        rw [hJ, List.getLast?_cons_cons] at hc
        refine ih hgood (by simp) c ?_
        rw [hJ]
        exact hc

theorem beq_slash_of_not_sep (d : Char) (h : isSep d = false) : (d == '/') = false := by
  unfold isSep at h
  cases hb : d == '/' with
  | false => rfl
  | true =>
    rw [hb] at h
    simp at h

theorem stripSlashes_eq_self (s : Str)
    (h1 : ∀ d, s.head? = some d → isSep d = false)
    (h2 : ∀ d, s.getLast? = some d → isSep d = false) :
    stripSlashes s = s := by
  unfold stripSlashes
  have d1 : s.dropWhile (fun c => c == '/') = s := by
    cases s with
    | nil => rfl
    | cons d t =>
      have hdd : (d == '/') = false := beq_slash_of_not_sep d (h1 d rfl)
      simp [List.dropWhile_cons, hdd]
  rw [d1]
  cases hrev : s.reverse with
  | nil =>
    have hs : s = [] := by
      have := congrArg List.reverse hrev
      simpa using this
    simpa using hs.symm
  | cons d t =>
    have hd : s.getLast? = some d := by
      rw [← List.head?_reverse, hrev]
      rfl
    have hdd : (d == '/') = false := beq_slash_of_not_sep d (h2 d hd)
    rw [List.dropWhile_cons, if_neg (by simp [hdd])]
    rw [← hrev, List.reverse_reverse]

theorem splitRootName_drive (c0 c1 : Char) (rest : Str)
    (h : (isDriveLetter c0 && c1 == ':') = true) :
    splitRootName (c0 :: c1 :: rest) = (some [c0, ':'], rest) := by
  simp only [splitRootName]
  rw [if_pos h]

theorem splitRootName_not_special (c0 c1 : Char) (rest : Str)
    (h1 : (isDriveLetter c0 && c1 == ':') = false)
    (h2 : (isSep c0 && isSep c1) = false) :
    splitRootName (c0 :: c1 :: rest) = (none, c0 :: c1 :: rest) := by
  simp only [splitRootName]
  rw [if_neg (by simp [h1]), if_neg (by simp [h2])]

theorem splitRootName_snd_of_none (s : Str) (h : (splitRootName s).1 = none) :
    (splitRootName s).2 = s := by
  cases s with
  | nil => rfl
  | cons c0 s1 =>
    cases s1 with
    | nil => rfl
    | cons c1 rest =>
      by_cases hd : (isDriveLetter c0 && c1 == ':') = true
      · rw [splitRootName_drive c0 c1 rest hd] at h
        cases h
      · by_cases hs : (isSep c0 && isSep c1) = true
        · cases rest with
          | nil => simp [splitRootName, hd, hs]
          | cons c2 r' =>
            by_cases h3 : isSep c2 = true
            · simp [splitRootName, hd, hs, h3]
            · exfalso
              simp [splitRootName, hd, hs, h3] at h
        · rw [splitRootName_not_special c0 c1 rest (by simpa using hd) (by simpa using hs)]

theorem parsePath_rootName (s : Str) : (parsePath s).rootName = (splitRootName s).1 := rfl

theorem parsePath_comps (s : Str) : (parsePath s).comps = splitComps (splitRootName s).2 := rfl

theorem parsePath_rootDir_of_snd (s : Str) (c : Char) (t : Str)
    (h : (splitRootName s).2 = c :: t) : (parsePath s).rootDir = isSep c := by
  simp only [parsePath]
  rw [h]

theorem normalize_eval (input : Str) (hroot : (parsePath input).rootName = none) :
    normalize_virtual_path input =
      (if ['.', '.'] ∈ (parsePath (lexicallyNormalGeneric input)).comps then none
       else if lexicallyNormalGeneric input = ['.'] ∨ lexicallyNormalGeneric input = ['/']
       then some []
       else some (if stripSlashes (lexicallyNormalGeneric input) = ['.'] then []
                  else stripSlashes (lexicallyNormalGeneric input))) := by
  unfold normalize_virtual_path
  rw [hroot]
  simp

theorem stripTrailing_eq_self (s : Str)
    (h2 : ∀ c, s.getLast? = some c → isSep c = false) :
    (s.reverse.dropWhile (fun c => c == '/')).reverse = s := by
  cases hrev : s.reverse with
  | nil =>
    have hs : s = [] := by
      have := congrArg List.reverse hrev
      simpa using this
    simpa using hs.symm
  | cons d t =>
    have hd : s.getLast? = some d := by
      rw [← List.head?_reverse, hrev]
      rfl
    have hdd : (d == '/') = false := beq_slash_of_not_sep d (h2 d hd)
    rw [List.dropWhile_cons, if_neg (by simp [hdd])]
    rw [← hrev, List.reverse_reverse]

theorem normalize_sound (input out : Str) (h : normalize_virtual_path input = some out) :
    out = joinSlash (collapse (parsePath input).rootDir (parsePath input).comps) ∧
    ∀ x ∈ collapse (parsePath input).rootDir (parsePath input).comps,
      x ≠ [] ∧ (∀ c ∈ x, ¬isSep c) ∧ x ≠ ['.'] ∧ x ≠ ['.', '.'] := by
  have hroot : (parsePath input).rootName = none := by
    by_cases hr : (parsePath input).rootName.isSome
    · exfalso
      unfold normalize_virtual_path at h
      rw [if_pos hr] at h
      cases h
    · exact Option.not_isSome_iff_eq_none.mp hr
  by_cases hin : input = []
  · subst hin
    have hnorm : normalize_virtual_path ([] : Str) = some [] := by decide
    rw [hnorm] at h
    have hout : ([] : Str) = out := Option.some.inj h
    have hcoll : collapse (parsePath ([] : Str)).rootDir (parsePath ([] : Str)).comps = [] := by
      decide
    rw [hcoll]
    refine ⟨hout.symm, ?_⟩
    intro x hx
    exact absurd hx (List.not_mem_nil x)
  · rw [normalize_eval input hroot] at h
    by_cases hrd : (parsePath input).rootDir = true
    · rw [hrd]
      have hgood' : ∀ x ∈ collapse true (parsePath input).comps,
          x ≠ [] ∧ ∀ c ∈ x, ¬isSep c := by
        intro x hx
        rcases collapse_subset true _ x hx with h' | h'
        · rw [parsePath_comps] at h'
          exact splitComps_good _ x h'
        · subst h'
          exact ⟨by simp, by decide⟩
      have hnodd := collapse_rootdir_no_dotdot (parsePath input).comps
      have hnodot : ∀ x ∈ collapse true (parsePath input).comps, x ≠ ['.'] :=
        fun x hx hdx => collapse_no_dot true _ (hdx ▸ hx)
      by_cases hLnil : collapse true (parsePath input).comps = []
      · have hs : lexicallyNormalGeneric input = ['/'] := by
          simp [lexicallyNormalGeneric, hin, hrd, hLnil, joinSlash]
        rw [hs] at h
        have hcomp : (parsePath ['/']).comps = [] := by decide
        rw [hcomp] at h
        simp only [List.not_mem_nil, if_false, if_neg (by simp : ¬(['.', '.'] ∈ ([] : List Str)))] at h
        rw [if_pos (by simp)] at h
        rw [hLnil]
        refine ⟨(Option.some.inj h).symm, ?_⟩
        intro x hx
        exact absurd hx (List.not_mem_nil x)
      · obtain ⟨d, t, hdt, hdns⟩ := joinSlash_cons_form _ hgood' hLnil
        have hs : lexicallyNormalGeneric input =
            '/' :: joinSlash (collapse true (parsePath input).comps) := by
          simp [lexicallyNormalGeneric, hin, hrd]
        rw [hs, hdt] at h
        by_cases hchk : ['.', '.'] ∈ (parsePath ('/' :: d :: t)).comps
        · rw [if_pos hchk] at h
          cases h
        · rw [if_neg hchk, if_neg (by simp)] at h
          have hlast : ∀ c, (d :: t).getLast? = some c → isSep c = false := by
            intro c hc
            refine joinSlash_getLast_not_sep _ hgood' hLnil c ?_
            rw [hdt]
            exact hc
          have hstrip : stripSlashes ('/' :: d :: t) = d :: t := by
            unfold stripSlashes
            rw [List.dropWhile_cons, if_pos (by simp)]
            rw [List.dropWhile_cons, if_neg (by simp [beq_slash_of_not_sep d hdns])]
            exact stripTrailing_eq_self (d :: t) hlast
          rw [hstrip] at h
          rw [if_neg (by
            intro hdot
            exact collapse_no_dot true (parsePath input).comps
              (joinSlash_eq_singleton _ (fun x hx => (hgood' x hx).1) '.'
                (hdt.trans hdot)))] at h
          rw [hdt]
          refine ⟨(Option.some.inj h).symm, ?_⟩
          intro x hx
          exact ⟨(hgood' x hx).1, (hgood' x hx).2, hnodot x hx,
            fun hdd => hnodd (hdd ▸ hx)⟩
    · have hrdf : (parsePath input).rootDir = false := by
        simpa using hrd
      rw [hrdf]
      have hgood' : ∀ x ∈ collapse false (parsePath input).comps,
          x ≠ [] ∧ ∀ c ∈ x, ¬isSep c := by
        intro x hx
        rcases collapse_subset false _ x hx with h' | h'
        · rw [parsePath_comps] at h'
          exact splitComps_good _ x h'
        · subst h'
          exact ⟨by simp, by decide⟩
      have hnodot : ∀ x ∈ collapse false (parsePath input).comps, x ≠ ['.'] :=
        fun x hx hdx => collapse_no_dot false _ (hdx ▸ hx)
      by_cases hLnil : collapse false (parsePath input).comps = []
      · have hs : lexicallyNormalGeneric input = ['.'] := by
          simp [lexicallyNormalGeneric, hin, hrdf, hLnil]
        rw [hs] at h
        have hcomp : (parsePath ['.']).comps = [['.']] := by decide
        rw [hcomp] at h
        rw [if_neg (by decide), if_pos (by simp)] at h
        rw [hLnil]
        refine ⟨(Option.some.inj h).symm, ?_⟩
        intro x hx
        exact absurd hx (List.not_mem_nil x)
      · have hs : lexicallyNormalGeneric input =
            joinSlash (collapse false (parsePath input).comps) := by
          simp [lexicallyNormalGeneric, hin, hrdf, hLnil]
        have hnodd : ['.', '.'] ∉ collapse false (parsePath input).comps := by
          intro hdd
          obtain ⟨restL, hrest⟩ := collapse_dotdot_head false (parsePath input).comps hdd
          have hform : ∃ r', joinSlash (collapse false (parsePath input).comps) =
              '.' :: '.' :: r' := by
            rw [hrest]
            cases restL with
            | nil => exact ⟨[], rfl⟩
            | cons z zs => exact ⟨'/' :: joinSlash (z :: zs), rfl⟩
          obtain ⟨r', hr'⟩ := hform
          have hsr : splitRootName ('.' :: '.' :: r') = (none, '.' :: '.' :: r') :=
            splitRootName_not_special '.' '.' r' (by decide) (by decide)
          have hcomps : (parsePath ('.' :: '.' :: r')).comps =
              collapse false (parsePath input).comps := by
            rw [parsePath_comps, hsr, ← hr', splitComps_joinSlash _ hgood']
          rw [hs, hr'] at h
          rw [if_pos (by rw [hcomps]; exact hdd)] at h
          cases h
        obtain ⟨d, t, hdt, hdns⟩ := joinSlash_cons_form _ hgood' hLnil
        rw [hs, hdt] at h
        by_cases hchk : ['.', '.'] ∈ (parsePath (d :: t)).comps
        · rw [if_pos hchk] at h
          cases h
        · rw [if_neg hchk] at h
          have hne_dot : ¬(d :: t = ['.']) := by
            intro hdot
            exact collapse_no_dot false (parsePath input).comps
              (joinSlash_eq_singleton _ (fun x hx => (hgood' x hx).1) '.'
                (hdt.trans hdot))
          have hne_slash : ¬(d :: t = ['/']) := by
            intro hsl
            have hmem := joinSlash_eq_singleton _ (fun x hx => (hgood' x hx).1) '/'
              (hdt.trans hsl)
            have := (hgood' _ hmem).2 '/' (List.mem_cons_self '/' [])
            simp [isSep] at this
          rw [if_neg (by rintro (h1 | h1); exact hne_dot h1; exact hne_slash h1)] at h
          have hlast : ∀ c, (d :: t).getLast? = some c → isSep c = false := by
            intro c hc
            refine joinSlash_getLast_not_sep _ hgood' hLnil c ?_
            rw [hdt]
            exact hc
          have hstrip : stripSlashes (d :: t) = d :: t := by
            unfold stripSlashes
            rw [List.dropWhile_cons, if_neg (by simp [beq_slash_of_not_sep d hdns])]
            exact stripTrailing_eq_self (d :: t) hlast
          rw [hstrip, if_neg hne_dot] at h
          rw [hdt]
          refine ⟨(Option.some.inj h).symm, ?_⟩
          intro x hx
          exact ⟨(hgood' x hx).1, (hgood' x hx).2, hnodot x hx,
            fun hdd => hnodd (hdd ▸ hx)⟩

/-- Counterexample to claim C8: on the MSVC path grammar the input ./b:c
normalizes to b:c, but feeding b:c back into the normalizer fails, because
the re-parsed string now starts with the drive-like root name b: and root
names are rejected.  Idempotence as claimed therefore fails. -/
theorem normalize_idempotence_counterexample :
    normalize_virtual_path ['.', '/', 'b', ':', 'c'] = some ['b', ':', 'c'] ∧
    normalize_virtual_path ['b', ':', 'c'] = none := by
  exact ⟨by decide, by decide⟩

/-- Claim C8 as amended: normalization is idempotent on every accepted
input whose output the normalizer accepts again: if normalize(p) = s and
normalize(s) succeeds, then normalize(s) = s.  (The second run can fail
only when the output re-parses with a drive-like root name, as in the
counterexample.) -/
theorem normalize_idempotent_on_accepted (input s : Str)
    (h1 : normalize_virtual_path input = some s)
    (h2 : (normalize_virtual_path s).isSome = true) :
    normalize_virtual_path s = some s := by
  obtain ⟨hout, hgoodL⟩ := normalize_sound input s h1
  by_cases hLnil : collapse (parsePath input).rootDir (parsePath input).comps = []
  · rw [hLnil] at hout
    have hs0 : s = [] := hout
    subst hs0
    decide
  · obtain ⟨d, t, hdt, hdns⟩ := joinSlash_cons_form _
      (fun x hx => ⟨(hgoodL x hx).1, (hgoodL x hx).2.1⟩) hLnil
    have hs_dt : s = d :: t := hout.trans hdt
    have hroot2 : (parsePath s).rootName = none := by
      by_cases hr : (parsePath s).rootName.isSome
      · exfalso
        have hn : normalize_virtual_path s = none := by
          unfold normalize_virtual_path
          rw [if_pos hr]
        rw [hn] at h2
        cases h2
      · exact Option.not_isSome_iff_eq_none.mp hr
    have hsnd : (splitRootName s).2 = s := by
      refine splitRootName_snd_of_none s ?_
      rw [← parsePath_rootName]
      exact hroot2
    have hrd2 : (parsePath s).rootDir = false := by
      have := parsePath_rootDir_of_snd s d t (hsnd.trans hs_dt)
      rw [this, hdns]
    have hcomps2 : (parsePath s).comps =
        collapse (parsePath input).rootDir (parsePath input).comps := by
      rw [parsePath_comps, hsnd, hout,
        splitComps_joinSlash _ (fun x hx => ⟨(hgoodL x hx).1, (hgoodL x hx).2.1⟩)]
    have hLL : collapse false (parsePath s).comps =
        collapse (parsePath input).rootDir (parsePath input).comps := by
      rw [hcomps2]
      exact collapse_id _ _ (fun x hx => ⟨(hgoodL x hx).2.2.1, (hgoodL x hx).2.2.2⟩)
    have hsne : s ≠ [] := by
      rw [hout]
      exact joinSlash_ne_nil _ (fun x hx => (hgoodL x hx).1) hLnil
    have hs2 : lexicallyNormalGeneric s = s := by
      show (if s = [] then [] else
        if (parsePath s).rootDir then
          '/' :: joinSlash (collapse (parsePath s).rootDir (parsePath s).comps)
        else if collapse (parsePath s).rootDir (parsePath s).comps = [] then ['.']
        else joinSlash (collapse (parsePath s).rootDir (parsePath s).comps)) = s
      rw [if_neg hsne, hrd2, if_neg (by simp), hLL, if_neg hLnil, ← hout]
    rw [normalize_eval s hroot2, hs2]
    rw [if_neg (by
      rw [hcomps2]
      intro hc
      exact (hgoodL _ hc).2.2.2 rfl)]
    have hnedot : ¬(s = ['.']) := by
      intro hdot
      refine collapse_no_dot (parsePath input).rootDir (parsePath input).comps ?_
      exact joinSlash_eq_singleton _ (fun x hx => (hgoodL x hx).1) '.'
        (hout.symm.trans hdot)
    have hneslash : ¬(s = ['/']) := by
      intro hsl
      have hmem := joinSlash_eq_singleton _ (fun x hx => (hgoodL x hx).1) '/'
        (hout.symm.trans hsl)
      have := (hgoodL _ hmem).2.1 '/' (List.mem_cons_self '/' [])
      simp [isSep] at this
    rw [if_neg (by rintro (hc | hc); exact hnedot hc; exact hneslash hc)]
    have hstrip : stripSlashes s = s := by
      refine stripSlashes_eq_self s ?_ ?_
      · intro d' hd'
        rw [hs_dt] at hd'
        have hdd' : d = d' := by simpa using hd'
        rw [← hdd']
        exact hdns
      · intro c hc
        refine joinSlash_getLast_not_sep _
          (fun x hx => ⟨(hgoodL x hx).1, (hgoodL x hx).2.1⟩) hLnil c ?_
        rw [← hout]
        exact hc
    rw [hstrip, if_neg hnedot]

/-- Witness for C8 as amended: a/./b normalizes to a/b, the output is
accepted again, and re-normalizing returns it unchanged. -/
theorem normalize_idempotent_on_accepted_witness :
    normalize_virtual_path ['a', '/', '.', '/', 'b'] = some ['a', '/', 'b'] ∧
    normalize_virtual_path ['a', '/', 'b'] = some ['a', '/', 'b'] := by
  refine ⟨by decide, ?_⟩
  exact normalize_idempotent_on_accepted ['a', '/', '.', '/', 'b'] ['a', '/', 'b']
    (by decide) (by decide)

/-- Counterexample to claim C5: the input /.. contains a dot-dot that
resolves above the virtual root (the spec-side escape test is true), yet
the normalizer accepts it and clamps it to the virtual root instead of
rejecting it. -/
theorem normalize_escape_counterexample :
    wouldEscapeRoot ['/', '.', '.'] = true ∧
    normalize_virtual_path ['/', '.', '.'] = some [] := by
  exact ⟨by decide, by decide⟩

/-- Claim C5 as amended: the normalizer rejects every input carrying a root
name (drive or UNC prefix); for inputs without a root directory, any
dot-dot that survives lexical collapsing against the accumulated relative
path (one that would cross above the virtual root) is rejected outright;
but an input with a root directory and no root name is always accepted:
its root-level dot-dots are clamped to the root rather than rejected. -/
theorem normalize_rejection_conditions (input : Str) :
    ((parsePath input).rootName.isSome = true → normalize_virtual_path input = none) ∧
    ((parsePath input).rootDir = false → wouldEscapeRoot input = true →
      normalize_virtual_path input = none) ∧
    ((parsePath input).rootName = none → (parsePath input).rootDir = true →
      (normalize_virtual_path input).isSome = true) := by
  refine ⟨?_, ?_, ?_⟩
  · intro hr
    unfold normalize_virtual_path
    rw [if_pos hr]
  · intro hrd hesc
    have hdd : ['.', '.'] ∈ collapse false (parsePath input).comps := by
      simpa [wouldEscapeRoot] using hesc
    cases hnorm : normalize_virtual_path input with
    | none => rfl
    | some out =>
      exfalso
      obtain ⟨hout, hgoodL⟩ := normalize_sound input out hnorm
      rw [hrd] at hgoodL
      exact (hgoodL _ hdd).2.2.2 rfl
  · intro hroot hrd
    have hin : input ≠ [] := by
      intro h0
      subst h0
      have hpd : (parsePath ([] : Str)).rootDir = false := by decide
      rw [hpd] at hrd
      cases hrd
    rw [normalize_eval input hroot]
    have hgood' : ∀ x ∈ collapse true (parsePath input).comps,
        x ≠ [] ∧ ∀ c ∈ x, ¬isSep c := by
      intro x hx
      rcases collapse_subset true _ x hx with h' | h'
      · rw [parsePath_comps] at h'
        exact splitComps_good _ x h'
      · subst h'
        exact ⟨by simp, by decide⟩
    by_cases hLnil : collapse true (parsePath input).comps = []
    · have hs : lexicallyNormalGeneric input = ['/'] := by
        simp [lexicallyNormalGeneric, hin, hrd, hLnil, joinSlash]
      rw [hs]
      rw [if_neg (by decide), if_pos (by simp)]
      rfl
    · obtain ⟨d, t, hdt, hdns⟩ := joinSlash_cons_form _ hgood' hLnil
      have hs : lexicallyNormalGeneric input =
          '/' :: joinSlash (collapse true (parsePath input).comps) := by
        simp [lexicallyNormalGeneric, hin, hrd]
      rw [hs, hdt]
      have hsplit : splitRootName ('/' :: d :: t) = (none, '/' :: d :: t) :=
        splitRootName_not_special '/' d t
          (by simp [show isDriveLetter '/' = false from by decide])
          (by simp [hdns])
      have hcomps : (parsePath ('/' :: d :: t)).comps =
          collapse true (parsePath input).comps := by
        rw [parsePath_comps, hsplit]
        have hsc : splitComps ('/' :: d :: t) = splitComps (d :: t) := by
          rw [splitComps_eq ('/' :: d :: t), foldr_splitCompsStep_slash]
          simp
        rw [hsc, ← hdt, splitComps_joinSlash _ hgood']
      rw [if_neg (by rw [hcomps]; exact collapse_rootdir_no_dotdot _)]
      rcases Decidable.em ('/' :: d :: t = ['.'] ∨ '/' :: d :: t = ['/']) with hc | hc
      · rw [if_pos hc]
        rfl
      · rw [if_neg hc]
        rfl

/-- Witness for C5 as amended: the drive-prefixed input C:x is rejected,
the escaping relative input ../a is rejected, and the root-directory input
/a is accepted. -/
theorem normalize_rejection_conditions_witness :
    (parsePath ['C', ':', 'x']).rootName.isSome = true ∧
    normalize_virtual_path ['C', ':', 'x'] = none ∧
    wouldEscapeRoot ['.', '.', '/', 'a'] = true ∧
    normalize_virtual_path ['.', '.', '/', 'a'] = none ∧
    (normalize_virtual_path ['/', 'a']).isSome = true := by
  refine ⟨by decide, (normalize_rejection_conditions ['C', ':', 'x']).1 (by decide),
    by decide, (normalize_rejection_conditions ['.', '.', '/', 'a']).2.1
      (by decide) (by decide),
    (normalize_rejection_conditions ['/', 'a']).2.2 (by decide) (by decide)⟩

end TinyVfs
